import Mathlib

/-!
# Shallow embedding of `src/hashtable.c` / `src/hashtable.h`

A separately-chained hash table of user records, keyed by NUL-terminated
byte-string names.  The embedding below follows the C source:

* C strings are modelled as `List ℕ` of byte values; the terminating NUL is
  implicit (the end of the list plays the role of the first `'\0'` byte, and
  `strlen` / `strncmp` stop at an embedded `0` exactly as the C library
  functions do on the underlying buffer).
* A record's `next` pointer turns each bucket into a singly linked chain,
  modelled as a `List user_t` whose head is the chain head.
* The bucket array `items` is a `List (List user_t)`; `capacity` and
  `num_items` are stored separately, exactly as in `hash_table_t`.
* The ambient C `errno` value is passed explicitly to every operation that
  reads it; none of the embedded operations writes it (`djb_hash` only sets
  `errno` for a NULL key, and the embedding's keys are always present).
* `calloc` success is an explicit `allocOk : Bool` parameter of
  `rehash_table` (the only fallible allocation the claims touch).
* `rehash_table` calls `insert_user`, which may call `rehash_table` again;
  this mutual recursion is driven by an explicit `fuel : ℕ` argument, with
  fuel exhaustion mapped to the failure value `none`.  Any fuel ≥ 1 is enough
  whenever the nested re-insertions performed by a rehash do not themselves
  trigger a further rehash.
* The C load-factor test `(num_items + 1) / (float)capacity > LOAD_FACTOR`
  is embedded as the exact test `3 * capacity < 4 * (num_items + 1)`; for
  the power-of-two capacities produced by the code and counts below 2^24
  the float computation is exact, so the two tests agree.
-/

/-- `UINT16_MAX`, the length bound passed to `strncmp` by `lookup_user` and
`delete_user`. -/
def UINT16_MAX : ℕ := 65535

/-- The POSIX `EINVAL` error number (22 on Linux). -/
def EINVAL : ℕ := 22

/-- `INIT_TBL_CAP` from `hashtable.h`. -/
def INIT_TBL_CAP : ℕ := 64

/-- 2^64, the modulus of `uint64_t` arithmetic. -/
def M64 : ℕ := 2 ^ 64

/-- `user_t` from `hashtable.h`.  The `next` pointer is represented by the
position of the record inside its bucket's chain list instead of a field. -/
structure user_t where
  name : List ℕ
  passwd : List ℕ
  sess_id : ℕ
  last_act_time : ℤ
  perms : ℕ
deriving DecidableEq, Repr

/-- `hash_table_t` from `hashtable.h`: the bucket array, its capacity and the
item count. -/
structure hash_table_t where
  items : List (List user_t)
  capacity : ℕ
  num_items : ℕ
deriving DecidableEq, Repr

/-- C `strlen` on the buffer modelled by the list: the number of bytes before
the first NUL (the end of the list counts as the terminating NUL). -/
def strlen (s : List ℕ) : ℕ := (s.takeWhile (· ≠ 0)).length

/-- C `strncmp` on the buffers modelled by the two lists, comparing at most
`n` bytes and stopping at the first NUL or first difference.  The end of a
list is read as the terminating NUL byte. -/
def strncmp : List ℕ → List ℕ → ℕ → ℤ
  | _, _, 0 => 0
  | [], [], _ + 1 => 0
  | [], b :: _, _ + 1 => if b = 0 then 0 else -(b : ℤ)
  | a :: _, [], _ + 1 => if a = 0 then 0 else (a : ℤ)
  | a :: as, b :: bs, n + 1 =>
    if a ≠ b then (a : ℤ) - (b : ℤ)
    else if a = 0 then 0
    else strncmp as bs n

/-- The loop of `djb_hash`: `hash = ((hash << 5) + hash) + *key` over the
bytes, in `uint64_t` arithmetic. -/
def djbLoop (h : ℕ) : List ℕ → ℕ
  | [] => h
  | b :: bs => djbLoop ((h * 2 ^ 5 + h + b) % M64) bs

/-- `djb_hash` from `hashtable.c`: seed 5381, then the shift-add loop over
the first `length` bytes of `key`.  (The C function's NULL-key branch, which
sets `errno` to `EINVAL` and returns 0, cannot arise here because keys are
always present in the model.) -/
def djb_hash (key : List ℕ) (length : ℕ) : ℕ :=
  djbLoop 5381 (key.take length)

/-- `create_table` from `hashtable.c` (with both `calloc`s succeeding):
`INIT_TBL_CAP` empty buckets, `num_items = 0`. -/
def create_table : hash_table_t :=
  { items := List.replicate INIT_TBL_CAP [], capacity := INIT_TBL_CAP, num_items := 0 }

/-- `create_user` from `hashtable.c` (with the `calloc`s succeeding): a NULL
`name` fails; otherwise the first `name_len` bytes of the name buffer and the
first `pw_len` bytes of the password buffer are copied into fresh
NUL-terminated buffers (the terminator is implicit in the list model), and
`sess_id` and `last_act_time` are left zeroed by `calloc`. -/
def create_user (name : Option (List ℕ)) (name_len : ℕ)
    (passwd : List ℕ) (pw_len : ℕ) (perms : ℕ) : Option user_t :=
  match name with
  | none => none
  | some nm =>
    some { name := nm.take name_len, passwd := passwd.take pw_len,
           sess_id := 0, last_act_time := 0, perms := perms }

/-- The chain-scanning loop shared by `lookup_user` (it returns the first
record of the chain whose stored name `strncmp`-matches the queried name with
bound `UINT16_MAX`, or `none` when the chain is exhausted). -/
def findMatch (name : List ℕ) : List user_t → Option user_t
  | [] => none
  | u :: rest =>
    if strncmp u.name name UINT16_MAX = 0 then some u else findMatch name rest

/-- `lookup_user` from `hashtable.c`, with the ambient `errno` passed
explicitly: hash the name, reduce modulo the capacity, fail when `errno` is
`EINVAL` and the bucket index is 0, otherwise scan the chain. -/
def lookup_user (errno : ℕ) (p_table : hash_table_t) (name : List ℕ) :
    Option user_t :=
  let idx := djb_hash name (strlen name) % p_table.capacity
  if errno = EINVAL ∧ idx = 0 then none
  else findMatch name (p_table.items.getD idx [])

/-- The chain-unlinking loop of `delete_user`: remove the first
`strncmp`-matching record from the chain, returning `none` when no record
matches. -/
def removeFirstMatch (name : List ℕ) : List user_t → Option (List user_t)
  | [] => none
  | u :: rest =>
    if strncmp u.name name UINT16_MAX = 0 then some rest
    else (removeFirstMatch name rest).map (u :: ·)

/-- `delete_user` from `hashtable.c`, with the ambient `errno` passed
explicitly.  Returns the C `bool` result together with the table after the
call.  Note that the source never decrements `num_items` on a successful
deletion. -/
def delete_user (errno : ℕ) (p_table : hash_table_t) (name : List ℕ) :
    Bool × hash_table_t :=
  let idx := djb_hash name (strlen name) % p_table.capacity
  if errno = EINVAL ∧ idx = 0 then (false, p_table)
  else
    match removeFirstMatch name (p_table.items.getD idx []) with
    | none => (false, p_table)
    | some chain => (true, { p_table with items := p_table.items.set idx chain })

/-- The body of `insert_user`, parameterised by the rehash function it calls:
compute the prospective load factor, rehash when it exceeds `LOAD_FACTOR`
(the caller's handle becomes NULL, i.e. `none`, when the rehash fails), then
hash the name, fail when `errno` is `EINVAL` and the raw hash is 0, and
otherwise prepend the record to its bucket's chain and increment `num_items`.
The returned pair is the C `bool` result together with the value of the
caller's `*pp_table` handle after the call (`none` = NULL). -/
def insertStep (rehash : hash_table_t → Option hash_table_t) (errno : ℕ)
    (t : hash_table_t) (u : user_t) : Bool × Option hash_table_t :=
  let grown : Option hash_table_t :=
    if 3 * t.capacity < 4 * (t.num_items + 1) then rehash t else some t
  match grown with
  | none => (false, none)
  | some t1 =>
    let res := djb_hash u.name (strlen u.name)
    if errno = EINVAL ∧ res = 0 then (false, some t1)
    else
      let idx := res % t1.capacity
      (true, some { t1 with
        items := t1.items.set idx (u :: t1.items.getD idx []),
        num_items := t1.num_items + 1 })

/-- The inner loop of `rehash_table` over one bucket's chain, in chain order:
each record is handed to `insert_user` on the new table, whose boolean result
is ignored by the source (a record whose insertion fails without destroying
the handle is silently dropped; if the handle itself is lost the whole rehash
is lost). -/
def rehashChain (ins : hash_table_t → user_t → Bool × Option hash_table_t) :
    Option hash_table_t → List user_t → Option hash_table_t
  | acc, [] => acc
  | none, _ :: _ => none
  | some ht, u :: rest => rehashChain ins ((ins ht u).2) rest

/-- The outer loop of `rehash_table` over the bucket array, in index order. -/
def rehashBuckets (ins : hash_table_t → user_t → Bool × Option hash_table_t) :
    Option hash_table_t → List (List user_t) → Option hash_table_t
  | acc, [] => acc
  | acc, c :: cs => rehashBuckets ins (rehashChain ins acc c) cs

/-- The freshly `calloc`ed replacement table built by `rehash_table`: double
the old capacity, all buckets empty, `num_items` zeroed. -/
def growInit (c : ℕ) : hash_table_t :=
  { items := List.replicate (2 * c) [], capacity := 2 * c, num_items := 0 }

/-- `rehash_table` from `hashtable.c`: allocate a table of double the
capacity (`none` when `allocOk` is false, modelling `calloc` failure, in
which case the old table is left untouched), then walk every old bucket in
index order and every chain in chain order, re-inserting each record into
the new table via `insert_user`.  `fuel` bounds the recursion depth through
nested rehashes; `fuel = 0` is exhaustion (`none`). -/
def rehash_table : (fuel : ℕ) → (errno : ℕ) → (allocOk : Bool) →
    hash_table_t → Option hash_table_t
  | 0, _, _, _ => none
  | fuel + 1, errno, allocOk, t =>
    if allocOk then
      rehashBuckets (fun ht u => insertStep (rehash_table fuel errno allocOk) errno ht u)
        (some (growInit t.capacity))
        t.items
    else none

/-- `insert_user` from `hashtable.c`, with ambient `errno`, allocation
success and recursion fuel explicit.  The result is the C `bool` together
with the caller's `*pp_table` handle after the call (`none` = NULL). -/
def insert_user (fuel errno : ℕ) (allocOk : Bool) (t : hash_table_t)
    (u : user_t) : Bool × Option hash_table_t :=
  insertStep (rehash_table fuel errno allocOk) errno t u

/-- All records reachable by walking every bucket chain of the table, in
bucket order then chain order. -/
def records (t : hash_table_t) : List user_t := t.items.flatten

/-- The stored names of all reachable records. -/
def recordNames (t : hash_table_t) : List (List ℕ) :=
  (records t).map user_t.name

/-- One caller-level operation on the table: transfer a record in, or delete
by name. -/
inductive Op where
  | ins : user_t → Op
  | del : List ℕ → Op
deriving DecidableEq, Repr

/-- Run one operation on the caller's handle, in the benign environment
(`errno = 0`, all allocations succeed, fuel 1 — enough whenever a rehash's
re-insertions do not themselves grow the table, which holds in every state
reachable from `create_table`). -/
def runOp (st : Option hash_table_t) (op : Op) : Option hash_table_t :=
  match st, op with
  | none, _ => none
  | some t, Op.ins u => (insert_user 1 0 true t u).2
  | some t, Op.del n => some (delete_user 0 t n).2

/-- Run a sequence of operations starting from a freshly created table. -/
def runState (ops : List Op) : Option hash_table_t :=
  ops.foldl runOp (some create_table)

/-- The hash recurrence exactly as the specification words it:
`hash = hash * 33 + b`, modulo 2^64, seeded with 5381. -/
def specHash (key : List ℕ) : ℕ :=
  key.foldl (fun h b => (h * 33 + b) % M64) 5381

/-- A well-formed stored name: a C string with no embedded NUL whose length
fits the `uint16_t` bound that `create_user` imposes on every record name it
builds. -/
def wfName (s : List ℕ) : Prop := 0 ∉ s ∧ s.length ≤ UINT16_MAX

/-- The bucket-placement invariant together with the structural fact that the
bucket array has exactly `capacity` slots: every record reachable from
`bucket[i]` hashes (mod the current capacity) to `i`. -/
def wfTable (t : hash_table_t) : Prop :=
  t.items.length = t.capacity ∧
  ∀ i, i < t.items.length →
    ∀ u ∈ t.items.getD i [], djb_hash u.name (strlen u.name) % t.capacity = i

/-- The full invariant of every table state reachable through the API in the
benign environment: bucket-array well-formedness, positive power-of-two-style
capacity, the load-factor bound maintained by `insert_user`, the fact that
`num_items` dominates the reachable-record count (the source never decrements
it on delete), well-formed stored names, and pairwise-distinct stored names
(maintained by sequences of inserts with pairwise-unique names). -/
structure SeqInv (t : hash_table_t) : Prop where
  wf : wfTable t
  cap_ge : 2 ≤ t.capacity
  load : 4 * t.num_items ≤ 3 * t.capacity
  count_le : (records t).length ≤ t.num_items
  names_wf : ∀ u ∈ records t, wfName u.name
  names_nodup : (recordNames t).Nodup

/-- Well-formedness of one caller operation: the record handed to insert, or
the name handed to delete, is a well-formed C string. -/
def opWf : Op → Prop
  | Op.ins u => wfName u.name
  | Op.del _ => True

/-- The names of the records inserted by a sequence of operations, in
order. -/
def opsInsNames : List Op → List (List ℕ)
  | [] => []
  | Op.ins u :: rest => u.name :: opsInsNames rest
  | Op.del _ :: rest => opsInsNames rest

/-- Concrete inputs used by the closed instances below. -/
def alice : List ℕ := [97, 108, 105, 99, 101]

def c2_user : user_t := ⟨[97], [115], 0, 0, 1⟩

def c2_table : hash_table_t :=
  (insert_user 1 0 true create_table c2_user).2.getD create_table

def c3_table : hash_table_t :=
  { items := List.replicate 64 [], capacity := 64, num_items := 48 }

def c3_user : user_t := ⟨[97], [], 0, 0, 0⟩

def c8_r1 : user_t := ⟨alice, [115, 49], 0, 0, 1⟩

def c8_r2 : user_t := ⟨alice, [115, 50], 0, 0, 2⟩

def c8_t2 : hash_table_t :=
  (insert_user 1 0 true
    ((insert_user 1 0 true create_table c8_r1).2.getD create_table)
    c8_r2).2.getD create_table

def c8_t3 : hash_table_t := (delete_user 0 c8_t2 alice).2

def c8_t4 : hash_table_t := (delete_user 0 c8_t3 alice).2

def c9_user : user_t := ⟨[91], [], 0, 0, 0⟩

def c9_table : hash_table_t :=
  (insert_user 1 0 true create_table c9_user).2.getD create_table

/-- The long name used against the `strncmp` bound: 65535 copies of byte
`97`. -/
def longA : List ℕ := List.replicate 65535 97

/-- A name that differs from `longA` only beyond the `UINT16_MAX` comparison
bound. -/
def longB : List ℕ := List.replicate 65535 97 ++ [98]

/-- A record storing the long name `longA`. -/
def longRec : user_t := ⟨longA, [], 0, 0, 0⟩

/-- A one-bucket table holding `longRec`, so that every queried name lands in
its bucket. -/
def longTable : hash_table_t := ⟨[[longRec]], 1, 1⟩

/-- The table produced by the non-growing branch of `insert_user`: the record
is prepended to the chain of bucket `hash(name) mod capacity` and `num_items`
is incremented. -/
def insTable (t : hash_table_t) (u : user_t) : hash_table_t :=
  let idx := djb_hash u.name (strlen u.name) % t.capacity
  { t with items := t.items.set idx (u :: t.items.getD idx []),
           num_items := t.num_items + 1 }

/-- Concrete inputs for the `create_user` truncation instance. -/
def c10_user : user_t := ⟨[97, 98], [112], 0, 0, 5⟩

/-- The placement invariant is decidable, so closed instances can be checked
by evaluation. -/
instance (t : hash_table_t) : Decidable (wfTable t) := by
  unfold wfTable
  infer_instance

/-- The table produced by an explicit rehash of `c2_table`, for the closed
placement-invariant instance. -/
def c6_rehashed : hash_table_t := (rehash_table 1 0 true c2_table).getD create_table

/-- Well-formedness of a name is decidable. -/
instance (s : List ℕ) : Decidable (wfName s) := by
  unfold wfName
  infer_instance

/-- Operation well-formedness is decidable. -/
instance (op : Op) : Decidable (opWf op) := by
  cases op with
  | ins u => unfold opWf; infer_instance
  | del n => unfold opWf; infer_instance

/-- Occurrence count of a name in a list of names. -/
def cntN (a : List ℕ) (l : List (List ℕ)) : ℕ := l.countP (fun b => b = a)

/-- Every stored record name occurs in `ins` at least as often as in the
table: the stored names are drawn from the inserted ones. -/
def namesLe (t : hash_table_t) (ins : List (List ℕ)) : Prop :=
  ∀ a, cntN a (recordNames t) ≤ cntN a ins

/-- 49 records with pairwise-distinct single-byte names. -/
def c5_users : List user_t := (List.range 49).map (fun i => ⟨[i + 1], [], 0, 0, 0⟩)

/-- The table after the first 48 of the 49 inserts. -/
def c5_t48 : hash_table_t := (runState ((c5_users.take 48).map Op.ins)).getD create_table

/-- The table after all 49 inserts. -/
def c5_t49 : hash_table_t := (runState (c5_users.map Op.ins)).getD create_table

/-!
## Theorems
-/

theorem djbLoop_foldl (l : List ℕ) :
    ∀ h, djbLoop h l = l.foldl (fun h b => (h * 33 + b) % M64) h := by
  induction l with
  | nil => intro h; rfl
  | cons b bs ih =>
    intro h
    show djbLoop ((h * 2 ^ 5 + h + b) % M64) bs = bs.foldl _ ((h * 33 + b) % M64)
    rw [ih]
    congr 2

/-- C7: `djb_hash` is a pure function of its byte-string argument (so it is
deterministic and stable across calls); on the first `len` bytes of the key
it computes the DJB fold `hash = hash * 33 + b` seeded with 5381, with all
arithmetic modulo 2^64; and the empty key hashes to exactly 5381. -/
theorem C7_djb_hash_spec :
    (∀ (key : List ℕ) (len : ℕ), djb_hash key len = specHash (key.take len)) ∧
    djb_hash [] 0 = 5381 := by
  refine ⟨fun key len => ?_, rfl⟩
  unfold djb_hash specHash
  exact djbLoop_foldl (key.take len) 5381

/-- C2: the invariant `num_items = number of reachable records` is the code's
documented intent, but `delete_user` never decrements `num_items`: after
inserting one record into a fresh table (`num_items = 1`, one reachable
record) and then successfully deleting it, the record is gone from every
bucket chain yet `num_items` is still 1.  This theorem evaluates the code at
that failing input. -/
theorem C2_num_items_not_decremented :
    c2_table.num_items = 1 ∧ (records c2_table).length = 1 ∧
    (delete_user 0 c2_table [97]).1 = true ∧
    records (delete_user 0 c2_table [97]).2 = [] ∧
    (delete_user 0 c2_table [97]).2.num_items = 1 := by decide

/-- C3 counterexample: with the prospective load factor above 0.75
(`num_items = 48`, `capacity = 64`) and the rehash allocation failing,
`insert_user` reports failure and does not insert the record, but the
caller's handle comes back NULL (`none`) rather than still pointing at the
unchanged table — the table is not "still usable" through the handle as the
claim states. -/
theorem C3_counterexample :
    insert_user 1 0 false c3_table c3_user = (false, none) ∧
    (insert_user 1 0 false c3_table c3_user).2 ≠ some c3_table := by decide

/-- C3 amended: if the prospective load factor exceeds 0.75 and the grow
performed inside insert fails to allocate, insert reports failure and the
record is not inserted; the old table object is never modified or freed by
the failed rehash, but the caller's handle is overwritten with NULL, so the
table is no longer reachable through it. -/
theorem C3_grow_failure (fuel errno : ℕ) (t : hash_table_t) (u : user_t)
    (htrig : 3 * t.capacity < 4 * (t.num_items + 1)) :
    insert_user fuel errno false t u = (false, none) := by
  unfold insert_user insertStep
  cases fuel with
  | zero => simp [rehash_table, htrig]
  | succ f => simp [rehash_table, htrig]

/-- Closed instance of `C3_grow_failure` at a concrete over-threshold table. -/
theorem C3_grow_failure_witness :
    3 * c3_table.capacity < 4 * (c3_table.num_items + 1) ∧
    insert_user 1 0 false c3_table c3_user = (false, none) :=
  ⟨by decide, C3_grow_failure 1 0 c3_table c3_user (by decide)⟩

/-- C8: inserting two records with the same name `"alice"` in sequence makes
the second the chain head, so lookup returns the second record; the first
delete removes only that head record, the second delete removes the earlier
record, and the third delete reports NotFound (false). -/
theorem C8_duplicate_name_chain :
    lookup_user 0 c8_t2 alice = some c8_r2 ∧
    (delete_user 0 c8_t2 alice).1 = true ∧
    records c8_t3 = [c8_r1] ∧
    (delete_user 0 c8_t3 alice).1 = true ∧
    records c8_t4 = [] ∧
    (delete_user 0 c8_t4 alice).1 = false := by decide

/-- C9: if the ambient `errno` equals `EINVAL` at call time and the queried
name hashes to bucket index 0, then `lookup_user` and `delete_user` report
failure without scanning the chain — even when a record matching the name is
present in the table. -/
theorem C9_einval_bucket0 (t : hash_table_t) (name : List ℕ) (u : user_t)
    (hmem : u ∈ records t) (hname : u.name = name)
    (hidx : djb_hash name (strlen name) % t.capacity = 0) :
    lookup_user EINVAL t name = none ∧ delete_user EINVAL t name = (false, t) := by
  unfold lookup_user delete_user
  simp [hidx]

/-- Closed instance of `C9_einval_bucket0`: the name `"["` hashes to bucket 0
of a fresh 64-bucket table, its record is present, and yet both operations
fail when `errno` is `EINVAL`. -/
theorem C9_einval_bucket0_witness :
    lookup_user EINVAL c9_table [91] = none ∧
    delete_user EINVAL c9_table [91] = (false, c9_table) :=
  C9_einval_bucket0 c9_table [91] c9_user (by decide) (by decide) (by decide)

theorem strncmp_self (n : ℕ) (s : List ℕ) : strncmp s s n = 0 := by
  induction n generalizing s with
  | zero => cases s <;> simp [strncmp]
  | succ m ih =>
    cases s with
    | nil => rfl
    | cons a as =>
      show (if a ≠ a then ((a : ℤ) - a) else if a = 0 then 0 else strncmp as as m) = 0
      simp [ih as]

theorem strncmp_eq_zero_iff (n : ℕ) :
    ∀ a b : List ℕ, 0 ∉ a → 0 ∉ b → (strncmp a b n = 0 ↔ a.take n = b.take n) := by
  induction n with
  | zero => intro a b _ _; simp [strncmp]
  | succ m ih =>
    intro a b ha hb
    cases a with
    | nil =>
      cases b with
      | nil => simp [strncmp]
      | cons y ys =>
        have hy : y ≠ 0 := fun h => hb (by simp [h])
        simp [strncmp, hy]
    | cons x xs =>
      have hx : x ≠ 0 := fun h => ha (by simp [h])
      cases b with
      | nil => simp [strncmp, hx]
      | cons y ys =>
        by_cases hxy : x = y
        · subst hxy
          have ihx := ih xs ys (fun h => ha (List.mem_cons_of_mem _ h))
            (fun h => hb (List.mem_cons_of_mem _ h))
          simp [strncmp, hx, ihx]
        · have hsub : (x : ℤ) - y ≠ 0 := by
            intro h
            exact hxy (by exact_mod_cast sub_eq_zero.mp h)
          simp [strncmp, hxy, hsub]

theorem getD_set_self {α : Type} (l : List α) (i : ℕ) (x d : α) (h : i < l.length) :
    (l.set i x).getD i d = x := by
  induction l generalizing i with
  | nil => simp at h
  | cons a as ih =>
    cases i with
    | zero => rfl
    | succ j => exact ih j (by simpa using h)

theorem getD_set_ne {α : Type} (l : List α) (i j : ℕ) (x d : α) (h : i ≠ j) :
    (l.set i x).getD j d = l.getD j d := by
  induction l generalizing i j with
  | nil => rfl
  | cons a as ih =>
    cases i with
    | zero => cases j with
      | zero => exact absurd rfl h
      | succ k => rfl
    | succ i' => cases j with
      | zero => rfl
      | succ k => exact ih i' k (fun hh => h (by rw [hh]))

theorem flatten_set_cons_perm {α : Type} (l : List (List α)) (i : ℕ) (x : α)
    (h : i < l.length) :
    (l.set i (x :: l.getD i [])).flatten.Perm (x :: l.flatten) := by
  induction l generalizing i with
  | nil => simp at h
  | cons a as ih =>
    cases i with
    | zero => simp
    | succ j =>
      have hp := ih j (by simpa using h)
      show (a ++ (as.set j (x :: as.getD j [])).flatten).Perm (x :: (a :: as).flatten)
      exact (hp.append_left a).trans List.perm_middle

theorem flatten_set_remove_perm {α : Type} (l : List (List α)) (i : ℕ)
    (c1 c2 : List α) (x : α) (h : i < l.length) (hc : l.getD i [] = c1 ++ x :: c2) :
    l.flatten.Perm (x :: (l.set i (c1 ++ c2)).flatten) := by
  induction l generalizing i with
  | nil => simp at h
  | cons a as ih =>
    cases i with
    | zero =>
      have ha : a = c1 ++ x :: c2 := hc
      subst ha
      show ((c1 ++ x :: c2) ++ as.flatten).Perm (x :: ((c1 ++ c2) ++ as.flatten))
      rw [List.append_assoc, List.append_assoc]
      exact List.perm_middle
    | succ j =>
      have hp := ih j (by simpa using h) hc
      show (a ++ as.flatten).Perm (x :: (a ++ (as.set j (c1 ++ c2)).flatten))
      exact (hp.append_left a).trans List.perm_middle

theorem getD_replicate_nil {α : Type} (n i : ℕ) :
    (List.replicate n ([] : List α)).getD i [] = [] := by
  induction n generalizing i with
  | zero => cases i <;> rfl
  | succ m ih => cases i with
    | zero => rfl
    | succ j => exact ih j

theorem longA_nozero : 0 ∉ longA := by
  intro h
  rw [longA, List.mem_replicate] at h
  exact absurd h.2 (by norm_num)

theorem longB_nozero : 0 ∉ longB := by
  intro h
  rw [longB, List.mem_append] at h
  rcases h with h | h
  · rw [List.mem_replicate] at h; exact absurd h.2 (by norm_num)
  · simp at h

theorem take_longA : longA.take UINT16_MAX = longA :=
  List.take_of_length_le (by rw [longA, UINT16_MAX, List.length_replicate])

theorem take_longB : longB.take UINT16_MAX = longA := by
  rw [longB, List.take_append_eq_append_take, List.length_replicate, UINT16_MAX,
    Nat.sub_self, List.take_zero, List.take_replicate, Nat.min_self, List.append_nil, longA]

theorem longA_ne_longB : longA ≠ longB := by
  intro h
  have h2 := congrArg List.length h
  rw [longA, longB, List.length_append, List.length_replicate] at h2
  simp at h2

theorem long_match : strncmp longA longB UINT16_MAX = 0 :=
  (strncmp_eq_zero_iff UINT16_MAX longA longB longA_nozero longB_nozero).mpr
    (take_longA.trans take_longB.symm)

/-- C4 counterexample: the stored 65535-byte name `longA` and the queried
65536-byte name `longB` differ (in length, hence at position 65535), yet the
`strncmp`-with-`UINT16_MAX` matching step used by `lookup_user` and
`delete_user` declares them equal, and `lookup_user` on a table holding the
`longA` record returns that record for the query `longB`. -/
theorem C4_counterexample :
    strncmp longRec.name longB UINT16_MAX = 0 ∧ longRec.name ≠ longB ∧
    lookup_user 0 longTable longB = some longRec := by
  refine ⟨long_match, longA_ne_longB, ?_⟩
  unfold lookup_user
  rw [show longTable.capacity = 1 from rfl, Nat.mod_one,
    if_neg (by rw [EINVAL]; omega),
    show longTable.items.getD 0 [] = [longRec] from rfl]
  unfold findMatch
  rw [show longRec.name = longA from rfl, if_pos long_match]

/-- C4 amended: the matching step of `lookup_user` and `delete_user` declares
a match exactly when the two NUL-free names agree on their first `UINT16_MAX`
(65535) bytes; for names no longer than 65535 bytes this coincides with full
byte-for-byte equality, but names that differ only beyond byte 65534 are
conflated. -/
theorem C4_match_is_bounded (a b : List ℕ) (ha : 0 ∉ a) (hb : 0 ∉ b) :
    (strncmp a b UINT16_MAX = 0 ↔ a.take UINT16_MAX = b.take UINT16_MAX) ∧
    (a.length ≤ UINT16_MAX → b.length ≤ UINT16_MAX →
      (strncmp a b UINT16_MAX = 0 ↔ a = b)) := by
  refine ⟨strncmp_eq_zero_iff _ a b ha hb, fun hla hlb => ?_⟩
  rw [strncmp_eq_zero_iff _ a b ha hb, List.take_of_length_le hla,
    List.take_of_length_le hlb]

/-- Closed instance of `C4_match_is_bounded` at two short concrete names. -/
theorem C4_match_is_bounded_witness :
    (0 : ℕ) ∉ ([97] : List ℕ) ∧ (0 : ℕ) ∉ ([97, 98] : List ℕ) ∧
    ((strncmp [97] [97, 98] UINT16_MAX = 0 ↔
        List.take UINT16_MAX [97] = List.take UINT16_MAX [97, 98]) ∧
     (List.length [97] ≤ UINT16_MAX → List.length [97, 98] ≤ UINT16_MAX →
        (strncmp [97] [97, 98] UINT16_MAX = 0 ↔ [97] = [97, 98]))) :=
  ⟨by decide, by decide, C4_match_is_bounded [97] [97, 98] (by decide) (by decide)⟩

theorem insertStep_no_grow (r : hash_table_t → Option hash_table_t)
    (t : hash_table_t) (u : user_t)
    (h : ¬ 3 * t.capacity < 4 * (t.num_items + 1)) :
    insertStep r 0 t u = (true, some (insTable t u)) := by
  unfold insertStep insTable
  rw [if_neg h]
  simp [EINVAL]

theorem lookup_insTable_self (t : hash_table_t) (u : user_t)
    (hlen : t.items.length = t.capacity) (hpos : 0 < t.capacity) :
    lookup_user 0 (insTable t u) u.name = some u := by
  unfold lookup_user insTable
  have hlt : djb_hash u.name (strlen u.name) % t.capacity < t.items.length := by
    rw [hlen]; exact Nat.mod_lt _ hpos
  simp only [EINVAL]
  rw [getD_set_self _ _ _ _ hlt]
  simp [findMatch, strncmp_self]

/-- C10: `create_user` stores as the record's name exactly the first
`name_len` bytes of the supplied name buffer (the NUL terminator appended by
`calloc`/`memcpy` is implicit in the list model of C strings) and as its
password the first `pw_len` bytes of the password buffer, so a record created
with `name_len` smaller than the buffer's C-string length is keyed on the
truncated prefix; inserting the record and looking it up under that stored
truncated name finds it, since lookups compare against the stored string. -/
theorem C10_create_user_truncation (nm pw : List ℕ) (nl pl perms : ℕ) (u : user_t)
    (hc : create_user (some nm) nl pw pl perms = some u) :
    u.name = nm.take nl ∧ u.passwd = pw.take pl ∧ u.perms = perms ∧
    insert_user 1 0 true create_table u = (true, some (insTable create_table u)) ∧
    lookup_user 0 (insTable create_table u) (nm.take nl) = some u := by
  have hu : u = (⟨nm.take nl, pw.take pl, 0, 0, perms⟩ : user_t) := by
    have h2 := hc
    unfold create_user at h2
    exact (Option.some_injective _ h2).symm
  have hname : u.name = nm.take nl := by rw [hu]
  refine ⟨hname, by rw [hu], by rw [hu], insertStep_no_grow _ _ _ (by decide), ?_⟩
  rw [← hname]
  exact lookup_insTable_self _ _ (by decide) (by decide)

/-- Closed instance of `C10_create_user_truncation`: a 3-byte buffer stored
with `name_len = 2` is keyed on its 2-byte prefix. -/
theorem C10_create_user_truncation_witness :
    create_user (some [97, 98, 99]) 2 [112, 113] 1 5 = some c10_user ∧
    (c10_user.name = List.take 2 [97, 98, 99] ∧
     c10_user.passwd = List.take 1 [112, 113] ∧ c10_user.perms = 5 ∧
     insert_user 1 0 true create_table c10_user =
       (true, some (insTable create_table c10_user)) ∧
     lookup_user 0 (insTable create_table c10_user) (List.take 2 [97, 98, 99]) =
       some c10_user) :=
  ⟨by decide, C10_create_user_truncation [97, 98, 99] [112, 113] 2 1 5 c10_user (by decide)⟩

theorem insTable_capacity (t : hash_table_t) (u : user_t) :
    (insTable t u).capacity = t.capacity := rfl

theorem insTable_num (t : hash_table_t) (u : user_t) :
    (insTable t u).num_items = t.num_items + 1 := rfl

theorem insTable_wf (t : hash_table_t) (u : user_t) (hw : wfTable t) :
    wfTable (insTable t u) := by
  obtain ⟨hlen, hplace⟩ := hw
  refine ⟨by simpa [insTable] using hlen, ?_⟩
  intro i hi v hv
  rw [show (insTable t u).capacity = t.capacity from rfl]
  have hi' : i < t.items.length := by simpa [insTable] using hi
  by_cases hii : djb_hash u.name (strlen u.name) % t.capacity = i
  · have hchain : (insTable t u).items.getD i [] =
        u :: t.items.getD (djb_hash u.name (strlen u.name) % t.capacity) [] := by
      unfold insTable
      rw [← hii] at hi' ⊢
      exact getD_set_self _ _ _ _ hi'
    rw [hchain] at hv
    rcases List.mem_cons.mp hv with h | h
    · subst h; exact hii
    · exact hplace i hi' v (hii ▸ h)
  · have hchain : (insTable t u).items.getD i [] = t.items.getD i [] := by
      unfold insTable
      exact getD_set_ne _ _ _ _ _ hii
    rw [hchain] at hv
    exact hplace i hi' v hv

theorem removeFirstMatch_decomp (name : List ℕ) :
    ∀ chain chain', removeFirstMatch name chain = some chain' →
      ∃ c1 x c2, chain = c1 ++ x :: c2 ∧ chain' = c1 ++ c2 ∧
        strncmp x.name name UINT16_MAX = 0 ∧
        ∀ v ∈ c1, strncmp v.name name UINT16_MAX ≠ 0 := by
  intro chain
  induction chain with
  | nil => intro chain' h; unfold removeFirstMatch at h; cases h
  | cons u rest ih =>
    intro chain' h
    unfold removeFirstMatch at h
    by_cases hm : strncmp u.name name UINT16_MAX = 0
    · rw [if_pos hm] at h
      exact ⟨[], u, rest, rfl, (Option.some_injective _ h).symm ▸ rfl, hm, by simp⟩
    · rw [if_neg hm] at h
      cases hrec : removeFirstMatch name rest with
      | none => rw [hrec] at h; simp at h
      | some c' =>
        rw [hrec] at h
        simp only [Option.map_some'] at h
        obtain ⟨c1, x, c2, hc, hc', hx, hnone⟩ := ih c' hrec
        refine ⟨u :: c1, x, c2, by rw [hc, List.cons_append], ?_, hx, ?_⟩
        · rw [← (Option.some_injective _ h), hc', List.cons_append]
        · intro v hv
          rcases List.mem_cons.mp hv with h' | h'
          · subst h'; exact hm
          · exact hnone v h'

theorem delete_success_decomp (errno : ℕ) (t : hash_table_t) (n : List ℕ)
    (t' : hash_table_t) (h : delete_user errno t n = (true, t')) :
    ∃ c1 x c2,
      t.items.getD (djb_hash n (strlen n) % t.capacity) [] = c1 ++ x :: c2 ∧
      strncmp x.name n UINT16_MAX = 0 ∧
      (∀ v ∈ c1, strncmp v.name n UINT16_MAX ≠ 0) ∧
      t' = { t with items := t.items.set (djb_hash n (strlen n) % t.capacity) (c1 ++ c2) } := by
  unfold delete_user at h
  by_cases he : errno = EINVAL ∧ djb_hash n (strlen n) % t.capacity = 0
  · rw [if_pos he] at h; cases h
  · rw [if_neg he] at h
    cases hrm : removeFirstMatch n (t.items.getD (djb_hash n (strlen n) % t.capacity) []) with
    | none => rw [hrm] at h; cases h
    | some chain =>
      rw [hrm] at h
      obtain ⟨c1, x, c2, hc, hc', hx, hnone⟩ := removeFirstMatch_decomp n _ _ hrm
      refine ⟨c1, x, c2, hc, hx, hnone, ?_⟩
      have := (Prod.mk.injEq _ _ _ _).mp h
      rw [← this.2, hc']

theorem delete_fail_eq (errno : ℕ) (t : hash_table_t) (n : List ℕ)
    (t' : hash_table_t) (h : delete_user errno t n = (false, t')) : t' = t := by
  unfold delete_user at h
  by_cases he : errno = EINVAL ∧ djb_hash n (strlen n) % t.capacity = 0
  · rw [if_pos he] at h; exact ((Prod.mk.injEq _ _ _ _).mp h).2.symm
  · rw [if_neg he] at h
    cases hrm : removeFirstMatch n (t.items.getD (djb_hash n (strlen n) % t.capacity) []) with
    | none => rw [hrm] at h; exact ((Prod.mk.injEq _ _ _ _).mp h).2.symm
    | some chain => rw [hrm] at h; cases ((Prod.mk.injEq _ _ _ _).mp h).1

theorem delete_wf (errno : ℕ) (t : hash_table_t) (n : List ℕ) (b : Bool)
    (t' : hash_table_t) (h : delete_user errno t n = (b, t')) (hw : wfTable t) :
    wfTable t' := by
  cases b with
  | false => rw [delete_fail_eq errno t n t' h]; exact hw
  | true =>
    obtain ⟨c1, x, c2, hc, _, _, ht'⟩ := delete_success_decomp errno t n t' h
    obtain ⟨hlen, hplace⟩ := hw
    subst ht'
    refine ⟨by simpa using hlen, ?_⟩
    intro i hi v hv
    have hi' : i < t.items.length := by simpa using hi
    by_cases hii : djb_hash n (strlen n) % t.capacity = i
    · have hchain : (t.items.set (djb_hash n (strlen n) % t.capacity) (c1 ++ c2)).getD i [] = c1 ++ c2 := by
        rw [← hii] at hi' ⊢
        exact getD_set_self _ _ _ _ hi'
      rw [show ({ t with items := t.items.set (djb_hash n (strlen n) % t.capacity) (c1 ++ c2) } : hash_table_t).items = t.items.set (djb_hash n (strlen n) % t.capacity) (c1 ++ c2) from rfl, hchain] at hv
      have hvold : v ∈ t.items.getD i [] := by
        rw [← hii, hc]
        rcases List.mem_append.mp hv with h' | h'
        · exact List.mem_append.mpr (Or.inl h')
        · exact List.mem_append.mpr (Or.inr (List.mem_cons_of_mem _ h'))
      exact hplace i hi' v hvold
    · have hchain : (t.items.set (djb_hash n (strlen n) % t.capacity) (c1 ++ c2)).getD i [] = t.items.getD i [] :=
        getD_set_ne _ _ _ _ _ hii
      rw [show ({ t with items := t.items.set (djb_hash n (strlen n) % t.capacity) (c1 ++ c2) } : hash_table_t).items = t.items.set (djb_hash n (strlen n) % t.capacity) (c1 ++ c2) from rfl, hchain] at hv
      exact hplace i hi' v hv

theorem insertStep_result (r : hash_table_t → Option hash_table_t) (e : ℕ)
    (t : hash_table_t) (u : user_t) (b : Bool) (t' : hash_table_t)
    (h : insertStep r e t u = (b, some t')) :
    ∃ t1, (if 3 * t.capacity < 4 * (t.num_items + 1) then r t else some t) = some t1 ∧
      (t' = t1 ∨ t' = insTable t1 u) := by
  unfold insertStep at h
  cases hg : (if 3 * t.capacity < 4 * (t.num_items + 1) then r t else some t) with
  | none => rw [hg] at h; cases ((Prod.mk.injEq _ _ _ _).mp h).2
  | some t1 =>
    rw [hg] at h
    dsimp only at h
    refine ⟨t1, rfl, ?_⟩
    by_cases he : e = EINVAL ∧ djb_hash u.name (strlen u.name) = 0
    · rw [if_pos he] at h
      exact Or.inl (Option.some_injective _ ((Prod.mk.injEq _ _ _ _).mp h).2.symm)
    · rw [if_neg he] at h
      exact Or.inr (Option.some_injective _ ((Prod.mk.injEq _ _ _ _).mp h).2).symm

theorem insertStep_wf (r : hash_table_t → Option hash_table_t)
    (hr : ∀ s s', r s = some s' → wfTable s')
    (e : ℕ) (t : hash_table_t) (u : user_t) (b : Bool) (t' : hash_table_t)
    (h : insertStep r e t u = (b, some t')) (hw : wfTable t) : wfTable t' := by
  obtain ⟨t1, hg, hcase⟩ := insertStep_result r e t u b t' h
  have hw1 : wfTable t1 := by
    by_cases htrig : 3 * t.capacity < 4 * (t.num_items + 1)
    · rw [if_pos htrig] at hg; exact hr t t1 hg
    · rw [if_neg htrig] at hg
      rw [← Option.some_injective _ hg]; exact hw
  rcases hcase with h1 | h1
  · rw [h1]; exact hw1
  · rw [h1]; exact insTable_wf t1 u hw1

theorem rehashChain_wf (ins : hash_table_t → user_t → Bool × Option hash_table_t)
    (hins : ∀ s u b s', ins s u = (b, some s') → wfTable s → wfTable s') :
    ∀ (chain : List user_t) (acc : Option hash_table_t),
      (∀ s, acc = some s → wfTable s) →
      ∀ s', rehashChain ins acc chain = some s' → wfTable s' := by
  intro chain
  induction chain with
  | nil =>
    intro acc hacc s' h
    simp only [rehashChain] at h
    exact hacc s' h
  | cons u rest ih =>
    intro acc hacc s' h
    cases acc with
    | none => rw [show rehashChain ins none (u :: rest) = none from rfl] at h; cases h
    | some s0 =>
      have hs0 := hacc s0 rfl
      refine ih ((ins s0 u).2) ?_ s' h
      intro s hs
      cases hib : ins s0 u with
      | mk b2 o =>
        rw [hib] at hs
        have hs' : o = some s := hs
        exact hins s0 u b2 s (by rw [hib, hs']) hs0

theorem rehashBuckets_wf (ins : hash_table_t → user_t → Bool × Option hash_table_t)
    (hins : ∀ s u b s', ins s u = (b, some s') → wfTable s → wfTable s') :
    ∀ (buckets : List (List user_t)) (acc : Option hash_table_t),
      (∀ s, acc = some s → wfTable s) →
      ∀ s', rehashBuckets ins acc buckets = some s' → wfTable s' := by
  intro buckets
  induction buckets with
  | nil =>
    intro acc hacc s' h
    simp only [rehashBuckets] at h
    exact hacc s' h
  | cons c cs ih =>
    intro acc hacc s' h
    refine ih (rehashChain ins acc c) ?_ s' h
    intro s hs
    exact rehashChain_wf ins hins c acc hacc s hs

theorem rehash_table_wf : ∀ (f e : ℕ) (a : Bool) (t t' : hash_table_t),
    rehash_table f e a t = some t' → wfTable t' := by
  intro f
  induction f with
  | zero => intro e a t t' h; cases h
  | succ g ih =>
    intro e a t t' h
    unfold rehash_table at h
    cases a with
    | false => simp at h
    | true =>
      rw [if_pos rfl] at h
      refine rehashBuckets_wf _ ?_ t.items _ ?_ t' h
      · intro s u b s' hins hws
        exact insertStep_wf _ (fun p q hq => ih e true p q hq) e s u b s' hins hws
      · intro s hs
        obtain rfl : growInit t.capacity = s := Option.some_injective _ hs
        refine ⟨by simp [growInit], ?_⟩
        intro i hi v hv
        rw [show (growInit t.capacity).items = List.replicate (2 * t.capacity) [] from rfl,
          getD_replicate_nil] at hv
        cases hv

theorem C6_placement_invariant :
    (∀ fuel errno allocOk t u b t',
        insert_user fuel errno allocOk t u = (b, some t') → wfTable t → wfTable t') ∧
    (∀ errno t n b t', delete_user errno t n = (b, t') → wfTable t → wfTable t') ∧
    (∀ fuel errno allocOk t t', rehash_table fuel errno allocOk t = some t' → wfTable t') := by
  refine ⟨?_, delete_wf, rehash_table_wf⟩
  intro fuel errno allocOk t u b t' h hw
  exact insertStep_wf _ (fun p q hq => rehash_table_wf fuel errno allocOk p q hq)
    errno t u b t' h hw

theorem C6_placement_invariant_witness :
    wfTable create_table ∧
    insert_user 1 0 true create_table c2_user = (true, some c2_table) ∧ wfTable c2_table ∧
    delete_user 0 c2_table [97] = (true, (delete_user 0 c2_table [97]).2) ∧
    wfTable (delete_user 0 c2_table [97]).2 ∧
    rehash_table 1 0 true c2_table = some c6_rehashed ∧ wfTable c6_rehashed :=
  ⟨by decide, by decide,
   C6_placement_invariant.1 1 0 true create_table c2_user true c2_table (by decide) (by decide),
   by decide,
   C6_placement_invariant.2.1 0 c2_table [97] true (delete_user 0 c2_table [97]).2
     (by decide) (by decide),
   by decide,
   C6_placement_invariant.2.2 1 0 true c2_table c6_rehashed (by decide)⟩

theorem flatten_replicate_nil {α : Type} (n : ℕ) :
    (List.replicate n ([] : List α)).flatten = [] := by
  induction n with
  | zero => rfl
  | succ m ih => simp [ih]

theorem mem_flatten_getD {α : Type} (l : List (List α)) (u : α) :
    u ∈ l.flatten ↔ ∃ j, j < l.length ∧ u ∈ l.getD j [] := by
  induction l with
  | nil => simp
  | cons c cs ih =>
    simp only [List.flatten_cons, List.mem_append, ih]
    constructor
    · rintro (h | ⟨j, hj, hm⟩)
      · exact ⟨0, by simp, h⟩
      · exact ⟨j + 1, by simpa using hj, hm⟩
    · rintro ⟨j, hj, hm⟩
      cases j with
      | zero => exact Or.inl hm
      | succ k => exact Or.inr ⟨k, by simpa using hj, hm⟩

theorem wf_match_iff (a b : List ℕ) (ha : wfName a) (hb : wfName b) :
    strncmp a b UINT16_MAX = 0 ↔ a = b := by
  rw [strncmp_eq_zero_iff _ a b ha.1 hb.1, List.take_of_length_le ha.2,
    List.take_of_length_le hb.2]

theorem findMatch_eq_none (n : List ℕ) :
    ∀ chain : List user_t, (∀ v ∈ chain, strncmp v.name n UINT16_MAX ≠ 0) →
      findMatch n chain = none := by
  intro chain
  induction chain with
  | nil => intro _; rfl
  | cons v rest ih =>
    intro h
    unfold findMatch
    rw [if_neg (h v (List.mem_cons_self v rest))]
    exact ih (fun w hw => h w (List.mem_cons_of_mem _ hw))

theorem findMatch_unique (n : List ℕ) :
    ∀ chain : List user_t, ∀ u ∈ chain, strncmp u.name n UINT16_MAX = 0 →
      (∀ v ∈ chain, strncmp v.name n UINT16_MAX = 0 → v = u) →
      findMatch n chain = some u := by
  intro chain
  induction chain with
  | nil => intro u hu; cases hu
  | cons v rest ih =>
    intro u hu hm huniq
    unfold findMatch
    by_cases hv : strncmp v.name n UINT16_MAX = 0
    · rw [if_pos hv, huniq v (List.mem_cons_self v rest) hv]
    · rw [if_neg hv]
      rcases List.mem_cons.mp hu with h | h
      · subst h; exact absurd hm hv
      · exact ih u h hm (fun w hw hwm => huniq w (List.mem_cons_of_mem _ hw) hwm)

theorem records_insTable_perm (t : hash_table_t) (u : user_t)
    (hlen : t.items.length = t.capacity) (hpos : 0 < t.capacity) :
    (records (insTable t u)).Perm (u :: records t) := by
  unfold records insTable
  apply flatten_set_cons_perm
  rw [hlen]
  exact Nat.mod_lt _ hpos

theorem growInit_wf (c : ℕ) : wfTable (growInit c) := by
  refine ⟨by simp [growInit], ?_⟩
  intro i hi v hv
  rw [show (growInit c).items = List.replicate (2 * c) [] from rfl,
    getD_replicate_nil] at hv
  cases hv

theorem records_growInit (c : ℕ) : records (growInit c) = [] := by
  unfold records growInit
  exact flatten_replicate_nil _

theorem lookup_mem (t : hash_table_t) (u : user_t)
    (hw : wfTable t) (hpos : 0 < t.capacity)
    (hnames : ∀ v ∈ records t, wfName v.name)
    (hnd : (recordNames t).Nodup)
    (hu : u ∈ records t) :
    lookup_user 0 t u.name = some u := by
  obtain ⟨hlen, hplace⟩ := hw
  unfold lookup_user
  rw [if_neg (by intro hc; exact absurd hc.1 (by decide))]
  obtain ⟨j, hj, hmem⟩ := (mem_flatten_getD t.items u).mp hu
  have hji : j = djb_hash u.name (strlen u.name) % t.capacity :=
    (hplace j hj u hmem).symm
  subst hji
  apply findMatch_unique _ _ u hmem (strncmp_self _ _)
  intro v hv hvm
  have hvrec : v ∈ records t := (mem_flatten_getD t.items v).mpr ⟨_, hj, hv⟩
  have hveq : v.name = u.name :=
    (wf_match_iff v.name u.name (hnames v hvrec) (hnames u hu)).mp hvm
  exact List.inj_on_of_nodup_map hnd hvrec hu hveq

theorem lookup_none (t : hash_table_t) (n : List ℕ)
    (hw : wfTable t) (hnames : ∀ v ∈ records t, wfName v.name) (hn : wfName n)
    (hnone : ∀ v ∈ records t, v.name ≠ n) :
    lookup_user 0 t n = none := by
  obtain ⟨hlen, hplace⟩ := hw
  unfold lookup_user
  rw [if_neg (by intro hc; exact absurd hc.1 (by decide))]
  apply findMatch_eq_none
  intro v hv hvm
  by_cases hj : djb_hash n (strlen n) % t.capacity < t.items.length
  · have hvrec : v ∈ records t := (mem_flatten_getD t.items v).mpr ⟨_, hj, hv⟩
    exact hnone v hvrec ((wf_match_iff v.name n (hnames v hvrec) hn).mp hvm)
  · rw [List.getD_eq_default] at hv
    · cases hv
    · omega

theorem rehashChain_no_grow (r : hash_table_t → Option hash_table_t) :
    ∀ (chain : List user_t) (ht : hash_table_t), wfTable ht → 0 < ht.capacity →
      4 * (ht.num_items + chain.length) ≤ 3 * ht.capacity →
      ∃ ht', rehashChain (fun s v => insertStep r 0 s v) (some ht) chain = some ht' ∧
        ht'.capacity = ht.capacity ∧ wfTable ht' ∧
        ht'.num_items = ht.num_items + chain.length ∧
        (records ht').Perm (chain ++ records ht) := by
  intro chain
  induction chain with
  | nil =>
    intro ht hw hpos _
    exact ⟨ht, by simp [rehashChain], rfl, hw, by simp, by simp⟩
  | cons v rest ih =>
    intro ht hw hpos hb
    have hlc : (v :: rest).length = rest.length + 1 := rfl
    rw [hlc] at hb
    have hnt : ¬ 3 * ht.capacity < 4 * (ht.num_items + 1) := by omega
    have hstep : insertStep r 0 ht v = (true, some (insTable ht v)) :=
      insertStep_no_grow r ht v hnt
    have hred : rehashChain (fun s w => insertStep r 0 s w) (some ht) (v :: rest) =
        rehashChain (fun s w => insertStep r 0 s w) (some (insTable ht v)) rest := by
      show rehashChain _ ((insertStep r 0 ht v).2) rest = _
      rw [hstep]
    obtain ⟨ht', hrun, hcap, hwf, hnum, hperm⟩ := ih (insTable ht v)
      (insTable_wf ht v hw)
      (by rw [insTable_capacity]; exact hpos)
      (by rw [insTable_capacity, insTable_num]; omega)
    refine ⟨ht', by rw [hred]; exact hrun, by rw [hcap, insTable_capacity], hwf, ?_, ?_⟩
    · rw [hnum, insTable_num, hlc]; omega
    · exact hperm.trans
        (((records_insTable_perm ht v hw.1 hpos).append_left rest).trans List.perm_middle)

theorem rehashBuckets_no_grow (r : hash_table_t → Option hash_table_t) :
    ∀ (buckets : List (List user_t)) (ht : hash_table_t), wfTable ht → 0 < ht.capacity →
      4 * (ht.num_items + buckets.flatten.length) ≤ 3 * ht.capacity →
      ∃ ht', rehashBuckets (fun s v => insertStep r 0 s v) (some ht) buckets = some ht' ∧
        ht'.capacity = ht.capacity ∧ wfTable ht' ∧
        ht'.num_items = ht.num_items + buckets.flatten.length ∧
        (records ht').Perm (buckets.flatten ++ records ht) := by
  intro buckets
  induction buckets with
  | nil =>
    intro ht hw hpos _
    exact ⟨ht, by simp [rehashBuckets], rfl, hw, by simp, by simp⟩
  | cons c cs ih =>
    intro ht hw hpos hb
    have hlf : (c :: cs).flatten.length = c.length + cs.flatten.length := by
      simp
    rw [hlf] at hb
    obtain ⟨h1, hrun1, hcap1, hwf1, hnum1, hperm1⟩ :=
      rehashChain_no_grow r c ht hw hpos (by omega)
    obtain ⟨ht', hrun2, hcap2, hwf2, hnum2, hperm2⟩ := ih h1 hwf1
      (by rw [hcap1]; exact hpos)
      (by rw [hcap1, hnum1]; omega)
    have hred : rehashBuckets (fun s v => insertStep r 0 s v) (some ht) (c :: cs) =
        rehashBuckets (fun s v => insertStep r 0 s v)
          (rehashChain (fun s v => insertStep r 0 s v) (some ht) c) cs := by
      simp only [rehashBuckets]
    refine ⟨ht', ?_, by rw [hcap2, hcap1], hwf2, ?_, ?_⟩
    · rw [hred, hrun1]; exact hrun2
    · rw [hnum2, hnum1, hlf]; omega
    · refine hperm2.trans ?_
      have : (records h1).Perm (c ++ records ht) := hperm1
      refine ((this.append_left cs.flatten).trans ?_)
      rw [show (c :: cs).flatten = c ++ cs.flatten from by simp, ← List.append_assoc]
      exact (List.perm_append_comm).append_right (records ht)

theorem rehash_no_grow (f : ℕ) (t : hash_table_t)
    (hw : wfTable t) (hpos : 0 < t.capacity)
    (hcnt : 4 * (records t).length ≤ 6 * t.capacity) :
    ∃ R, rehash_table (f + 1) 0 true t = some R ∧ R.capacity = 2 * t.capacity ∧
      wfTable R ∧ R.num_items = (records t).length ∧ (records R).Perm (records t) := by
  have hcnt2 : 4 * t.items.flatten.length ≤ 6 * t.capacity := hcnt
  obtain ⟨R, hrun, hcap, hwfR, hnum, hperm⟩ :=
    rehashBuckets_no_grow (rehash_table f 0 true) t.items (growInit t.capacity)
      (growInit_wf t.capacity)
      (by rw [show (growInit t.capacity).capacity = 2 * t.capacity from rfl]; omega)
      (by rw [show (growInit t.capacity).capacity = 2 * t.capacity from rfl,
              show (growInit t.capacity).num_items = 0 from rfl]
          omega)
  refine ⟨R, ?_, by rw [hcap]; rfl, hwfR, ?_, ?_⟩
  · unfold rehash_table
    rw [if_pos rfl]
    exact hrun
  · rw [hnum]
    show 0 + t.items.flatten.length = (records t).length
    rw [show (records t).length = t.items.flatten.length from rfl]
    omega
  · refine hperm.trans ?_
    rw [records_growInit, List.append_nil]
    exact List.Perm.refl _

theorem insertStep_grow (r : hash_table_t → Option hash_table_t)
    (t : hash_table_t) (u : user_t) (R : hash_table_t)
    (htrig : 3 * t.capacity < 4 * (t.num_items + 1)) (hr : r t = some R) :
    insertStep r 0 t u = (true, some (insTable R u)) := by
  unfold insertStep insTable
  rw [if_pos htrig, hr]
  simp [EINVAL]

theorem recordNames_perm_of_records {t : hash_table_t} {l : List user_t}
    (h : (records t).Perm l) : (recordNames t).Perm (l.map user_t.name) := by
  unfold recordNames
  exact h.map _

theorem insert_run (t : hash_table_t) (u : user_t) (hs : SeqInv t)
    (hwfu : wfName u.name) (hfresh : u.name ∉ recordNames t) :
    ∃ T, insert_user 1 0 true t u = (true, some T) ∧ SeqInv T ∧
      (records T).Perm (u :: records t) ∧
      T.capacity = (if 3 * t.capacity < 4 * (t.num_items + 1)
        then 2 * t.capacity else t.capacity) ∧
      T.num_items = (if 3 * t.capacity < 4 * (t.num_items + 1)
        then (records t).length else t.num_items) + 1 := by
  obtain ⟨hw, hcapge, hload, hcount, hnameswf, hnd⟩ := hs
  have hpos : 0 < t.capacity := by omega
  by_cases htrig : 3 * t.capacity < 4 * (t.num_items + 1)
  · -- grow path
    obtain ⟨R, hreq, hRcap, hRwf, hRnum, hRperm⟩ :=
      rehash_no_grow 0 t hw hpos (by omega)
    have hRpos : 0 < R.capacity := by rw [hRcap]; omega
    refine ⟨insTable R u, insertStep_grow _ t u R htrig hreq, ?_, ?_, ?_, ?_⟩
    · -- SeqInv (insTable R u)
      have hperm : (records (insTable R u)).Perm (u :: records R) :=
        records_insTable_perm R u hRwf.1 hRpos
      have hpermt : (records (insTable R u)).Perm (u :: records t) :=
        hperm.trans (hRperm.cons u)
      refine ⟨insTable_wf R u hRwf, ?_, ?_, ?_, ?_, ?_⟩
      · rw [insTable_capacity, hRcap]; omega
      · rw [insTable_capacity, insTable_num, hRcap, hRnum]; omega
      · rw [insTable_num, hRnum, hpermt.length_eq]
        simp
      · intro v hv
        rcases List.mem_cons.mp (hpermt.mem_iff.mp hv) with h | h
        · subst h; exact hwfu
        · exact hnameswf v h
      · have hmapperm : (recordNames (insTable R u)).Perm (u.name :: recordNames t) :=
          recordNames_perm_of_records hpermt
        rw [hmapperm.nodup_iff]
        exact List.Nodup.cons hfresh hnd
    · exact (records_insTable_perm R u hRwf.1 hRpos).trans (hRperm.cons u)
    · rw [insTable_capacity, hRcap, if_pos htrig]
    · rw [insTable_num, hRnum, if_pos htrig]
  · -- no-grow path
    have hins : insert_user 1 0 true t u = (true, some (insTable t u)) :=
      insertStep_no_grow _ t u htrig
    have hperm : (records (insTable t u)).Perm (u :: records t) :=
      records_insTable_perm t u hw.1 hpos
    refine ⟨insTable t u, hins, ?_, hperm, ?_, ?_⟩
    · refine ⟨insTable_wf t u hw, ?_, ?_, ?_, ?_, ?_⟩
      · rw [insTable_capacity]; omega
      · rw [insTable_capacity, insTable_num]; omega
      · rw [insTable_num, hperm.length_eq]
        simp only [List.length_cons]
        omega
      · intro v hv
        rcases List.mem_cons.mp (hperm.mem_iff.mp hv) with h | h
        · subst h; exact hwfu
        · exact hnameswf v h
      · have hmapperm : (recordNames (insTable t u)).Perm (u.name :: recordNames t) :=
          recordNames_perm_of_records hperm
        rw [hmapperm.nodup_iff]
        exact List.Nodup.cons hfresh hnd
    · rw [insTable_capacity, if_neg htrig]
    · rw [insTable_num, if_neg htrig]

theorem delete_records_perm (t : hash_table_t) (n : List ℕ) (t' : hash_table_t)
    (hw : wfTable t) (hpos : 0 < t.capacity)
    (h : delete_user 0 t n = (true, t')) :
    ∃ x, x ∈ records t ∧ strncmp x.name n UINT16_MAX = 0 ∧
      (records t).Perm (x :: records t') ∧
      t'.capacity = t.capacity ∧ t'.num_items = t.num_items := by
  obtain ⟨c1, x, c2, hc, hx, _, ht'⟩ := delete_success_decomp 0 t n t' h
  have hlt : djb_hash n (strlen n) % t.capacity < t.items.length := by
    rw [hw.1]; exact Nat.mod_lt _ hpos
  have hxmem : x ∈ records t := by
    apply (mem_flatten_getD t.items x).mpr
    exact ⟨_, hlt, by rw [hc]; exact List.mem_append.mpr (Or.inr (List.mem_cons_self x c2))⟩
  refine ⟨x, hxmem, hx, ?_, by rw [ht'], by rw [ht']⟩
  have hperm := flatten_set_remove_perm t.items _ c1 c2 x hlt hc
  rw [ht']
  exact hperm

theorem delete_seqinv (t : hash_table_t) (n : List ℕ) (b : Bool) (t' : hash_table_t)
    (hs : SeqInv t) (h : delete_user 0 t n = (b, t')) : SeqInv t' := by
  obtain ⟨hw, hcapge, hload, hcount, hnameswf, hnd⟩ := hs
  cases b with
  | false => rw [delete_fail_eq 0 t n t' h]; exact ⟨hw, hcapge, hload, hcount, hnameswf, hnd⟩
  | true =>
    have hpos : 0 < t.capacity := by omega
    obtain ⟨x, hxmem, hx, hperm, hcap, hnum⟩ := delete_records_perm t n t' hw hpos h
    have hnamesperm : (recordNames t).Perm (x.name :: recordNames t') :=
      recordNames_perm_of_records hperm
    refine ⟨delete_wf 0 t n true t' h hw, by omega, by omega, ?_, ?_, ?_⟩
    · have := hperm.length_eq
      simp only [List.length_cons] at this
      omega
    · intro v hv
      exact hnameswf v (hperm.mem_iff.mpr (List.mem_cons_of_mem _ hv))
    · have h2 := hnamesperm.nodup_iff.mp hnd
      exact (List.nodup_cons.mp h2).2

theorem delete_true_lookup_none (t : hash_table_t) (n : List ℕ) (t' : hash_table_t)
    (hs : SeqInv t) (hn : wfName n) (h : delete_user 0 t n = (true, t')) :
    lookup_user 0 t' n = none := by
  obtain ⟨hw, hcapge, hload, hcount, hnameswf, hnd⟩ := hs
  have hpos : 0 < t.capacity := by omega
  obtain ⟨x, hxmem, hx, hperm, hcap, hnum⟩ := delete_records_perm t n t' hw hpos h
  have hxname : x.name = n := (wf_match_iff x.name n (hnameswf x hxmem) hn).mp hx
  have hs' : SeqInv t' :=
    delete_seqinv t n true t' ⟨hw, hcapge, hload, hcount, hnameswf, hnd⟩ h
  apply lookup_none t' n hs'.1 hs'.5 hn
  intro v hv hvn
  have hvmem : v ∈ records t := hperm.mem_iff.mpr (List.mem_cons_of_mem _ hv)
  have hvx : v = x := List.inj_on_of_nodup_map hnd hvmem hxmem (by rw [hvn, hxname])
  subst hvx
  have hndmap : ((records t).map user_t.name).Nodup := hnd
  have hndrec : (records t).Nodup := List.Nodup.of_map _ hndmap
  have hcnt1 : (records t).count v ≤ 1 := List.nodup_iff_count_le_one.mp hndrec v
  have hcnt2 : (v :: records t').count v = (records t).count v := (hperm.count_eq v).symm
  rw [List.count_cons_self] at hcnt2
  have hvpos : 0 < (records t').count v := List.count_pos_iff.mpr hv
  omega

theorem cntN_nil (a : List ℕ) : cntN a [] = 0 := rfl

theorem cntN_cons (a x : List ℕ) (l : List (List ℕ)) :
    cntN a (x :: l) = cntN a l + (if x = a then 1 else 0) := by
  unfold cntN
  rw [List.countP_cons]
  simp

theorem cntN_append (a : List ℕ) (l1 l2 : List (List ℕ)) :
    cntN a (l1 ++ l2) = cntN a l1 + cntN a l2 := by
  unfold cntN
  exact List.countP_append _ _ _

theorem cntN_perm (a : List ℕ) {l1 l2 : List (List ℕ)} (h : l1.Perm l2) :
    cntN a l1 = cntN a l2 := h.countP_eq _

theorem cntN_pos_iff (a : List ℕ) (l : List (List ℕ)) : 0 < cntN a l ↔ a ∈ l := by
  unfold cntN
  rw [List.countP_pos_iff]
  constructor
  · rintro ⟨b, hb, he⟩
    exact (of_decide_eq_true he) ▸ hb
  · intro h
    exact ⟨a, h, by simp⟩

theorem cntN_eq_zero (a : List ℕ) (l : List (List ℕ)) (h : a ∉ l) : cntN a l = 0 := by
  by_contra hne
  exact h ((cntN_pos_iff a l).mp (Nat.pos_of_ne_zero hne))

theorem opsInsNames_append (l1 l2 : List Op) :
    opsInsNames (l1 ++ l2) = opsInsNames l1 ++ opsInsNames l2 := by
  induction l1 with
  | nil => rfl
  | cons op rest ih =>
    cases op with
    | ins u => simp [opsInsNames, ih]
    | del n => simp [opsInsNames, ih]

theorem run_ops (ops : List Op) :
    ∀ (t0 : hash_table_t) (ins0 : List (List ℕ)), SeqInv t0 → namesLe t0 ins0 →
      (∀ op ∈ ops, opWf op) → (ins0 ++ opsInsNames ops).Nodup →
      ∃ t, List.foldl runOp (some t0) ops = some t ∧ SeqInv t ∧
        namesLe t (ins0 ++ opsInsNames ops) := by
  induction ops with
  | nil =>
    intro t0 ins0 hs hle _ _
    refine ⟨t0, rfl, hs, ?_⟩
    intro a
    have := hle a
    simp only [opsInsNames, List.append_nil]
    omega
  | cons op rest ih =>
    intro t0 ins0 hs hle hwf hnd
    cases op with
    | ins u =>
      have hwfu : wfName u.name := hwf (Op.ins u) (List.mem_cons_self _ _)
      have hnd' : (ins0 ++ u.name :: opsInsNames rest).Nodup := by
        simpa [opsInsNames] using hnd
      have hnotin0 : u.name ∉ ins0 := by
        intro hin
        obtain ⟨-, -, hdis⟩ := List.nodup_append.mp hnd'
        exact hdis hin (List.mem_cons_self _ _)
      have hfresh : u.name ∉ recordNames t0 := by
        intro hmem
        have h1 : 0 < cntN u.name (recordNames t0) := (cntN_pos_iff _ _).mpr hmem
        have h2 := hle u.name
        have h3 : cntN u.name ins0 = 0 := cntN_eq_zero _ _ hnotin0
        omega
      obtain ⟨T, hIns, hsT, hperm, -, -⟩ := insert_run t0 u hs hwfu hfresh
      have hstep : List.foldl runOp (some t0) (Op.ins u :: rest) =
          List.foldl runOp (some T) rest := by
        show List.foldl runOp (runOp (some t0) (Op.ins u)) rest = _
        rw [show runOp (some t0) (Op.ins u) = (insert_user 1 0 true t0 u).2 from rfl, hIns]
      have hleT : namesLe T (ins0 ++ [u.name]) := by
        intro a
        have hceq : cntN a (recordNames T) = cntN a (u.name :: recordNames t0) :=
          cntN_perm a (recordNames_perm_of_records hperm)
        rw [hceq, cntN_append, cntN_cons a u.name (recordNames t0),
          cntN_cons a u.name [], cntN_nil]
        have := hle a
        omega
      obtain ⟨t, hrun, hst, hlet⟩ := ih T (ins0 ++ [u.name]) hsT hleT
        (fun op hop => hwf op (List.mem_cons_of_mem _ hop))
        (by rw [List.append_assoc]; exact hnd')
      refine ⟨t, by rw [hstep]; exact hrun, hst, ?_⟩
      intro a
      have hl := hlet a
      rw [show (ins0 ++ [u.name]) ++ opsInsNames rest =
        ins0 ++ u.name :: opsInsNames rest from by rw [List.append_assoc]; rfl] at hl
      simpa [opsInsNames] using hl
    | del n =>
      cases hdel : delete_user 0 t0 n with
      | mk b t1 =>
        have hs1 : SeqInv t1 := delete_seqinv t0 n b t1 hs hdel
        have hle1 : namesLe t1 ins0 := by
          cases b with
          | false =>
            rw [delete_fail_eq 0 t0 n t1 hdel]
            exact hle
          | true =>
            have hpos : 0 < t0.capacity := by have := hs.cap_ge; omega
            obtain ⟨x, -, -, hperm, -, -⟩ := delete_records_perm t0 n t1 hs.wf hpos hdel
            intro a
            have hceq : cntN a (recordNames t0) = cntN a (x.name :: recordNames t1) :=
              cntN_perm a (recordNames_perm_of_records hperm)
            have := hle a
            rw [cntN_cons] at hceq
            omega
        have hstep : List.foldl runOp (some t0) (Op.del n :: rest) =
            List.foldl runOp (some t1) rest := by
          show List.foldl runOp (runOp (some t0) (Op.del n)) rest = _
          rw [show runOp (some t0) (Op.del n) = some ((delete_user 0 t0 n).2) from rfl, hdel]
        obtain ⟨t, hrun, hst, hlet⟩ := ih t1 ins0 hs1 hle1
          (fun op hop => hwf op (List.mem_cons_of_mem _ hop))
          (by simpa [opsInsNames] using hnd)
        refine ⟨t, by rw [hstep]; exact hrun, hst, ?_⟩
        intro a
        have := hlet a
        simpa [opsInsNames] using this

theorem seqInv_create : SeqInv create_table :=
  ⟨by decide, by decide, by decide, by decide, by decide, by decide⟩

theorem namesLe_create : namesLe create_table [] := by
  intro a
  rw [show recordNames create_table = [] from by decide, cntN_nil]

/-- C1: for every sequence of insert and delete operations whose inserted
records carry pairwise-unique well-formed names (NUL-free byte strings within
the `uint16_t` length bound that `create_user` enforces on every record it
builds), a lookup performed immediately after inserting a record returns that
exact record, and a lookup performed immediately after successfully deleting
a record's name returns NotFound (`none`).  Operations run in the benign
environment: `errno = 0` and all allocations succeed. -/

theorem C1_lookup_after_insert_delete (pre : List Op)
    (hwf : ∀ op ∈ pre, opWf op) :
    (∀ u t, wfName u.name → (opsInsNames (pre ++ [Op.ins u])).Nodup →
      runState (pre ++ [Op.ins u]) = some t → lookup_user 0 t u.name = some u) ∧
    (∀ n t0, wfName n → (opsInsNames pre).Nodup → runState pre = some t0 →
      (delete_user 0 t0 n).1 = true →
      lookup_user 0 (delete_user 0 t0 n).2 n = none) := by
  constructor
  · intro u t hwfu hnd hrun
    have hnd0 : (([] : List (List ℕ)) ++ opsInsNames pre).Nodup := by
      rw [opsInsNames_append] at hnd
      simp only [List.nil_append]
      exact (List.nodup_append.mp hnd).1
    obtain ⟨tp, hrunp, hsp, hlep⟩ :=
      run_ops pre create_table [] seqInv_create namesLe_create hwf hnd0
    have hfresh : u.name ∉ recordNames tp := by
      intro hmem
      have h1 : 0 < cntN u.name (recordNames tp) := (cntN_pos_iff _ _).mpr hmem
      have h2 := hlep u.name
      have h3 : u.name ∉ opsInsNames pre := by
        rw [opsInsNames_append] at hnd
        obtain ⟨-, -, hdis⟩ := List.nodup_append.mp hnd
        intro hin
        exact hdis hin (by simp [opsInsNames])
      have h4 : cntN u.name ([] ++ opsInsNames pre) = 0 := by
        rw [List.nil_append]
        exact cntN_eq_zero _ _ h3
      omega
    obtain ⟨T, hIns, hsT, hperm, -, -⟩ := insert_run tp u hsp hwfu hfresh
    have hrunT : runState (pre ++ [Op.ins u]) = some T := by
      unfold runState
      rw [List.foldl_append, hrunp]
      show runOp (some tp) (Op.ins u) = some T
      rw [show runOp (some tp) (Op.ins u) = (insert_user 1 0 true tp u).2 from rfl, hIns]
    have hT : t = T := by
      rw [hrunT] at hrun
      exact Option.some_injective _ hrun.symm
    subst hT
    have hpos : 0 < t.capacity := by have := hsT.cap_ge; omega
    exact lookup_mem t u hsT.wf hpos hsT.names_wf hsT.names_nodup
      (hperm.mem_iff.mpr (List.mem_cons_self _ _))
  · intro n t0 hwfn hnd hrun hdel
    have hnd0 : (([] : List (List ℕ)) ++ opsInsNames pre).Nodup := by
      simpa using hnd
    obtain ⟨tp, hrunp, hsp, -⟩ :=
      run_ops pre create_table [] seqInv_create namesLe_create hwf hnd0
    have ht0 : t0 = tp := by
      unfold runState at hrun
      rw [hrunp] at hrun
      exact Option.some_injective _ hrun.symm
    subst ht0
    have hdeq : delete_user 0 t0 n = (true, (delete_user 0 t0 n).2) := by
      rw [show delete_user 0 t0 n = ((delete_user 0 t0 n).1, (delete_user 0 t0 n).2)
        from rfl, hdel]
    exact delete_true_lookup_none t0 n (delete_user 0 t0 n).2 hsp hwfn hdeq

theorem insert_seq_no_grow (us : List user_t) : ∀ (t0 : hash_table_t), SeqInv t0 →
    (∀ u ∈ us, wfName u.name) → (us.map user_t.name).Nodup →
    (∀ u ∈ us, u.name ∉ recordNames t0) →
    4 * (t0.num_items + us.length) ≤ 3 * t0.capacity →
    ∃ t, List.foldl runOp (some t0) (us.map Op.ins) = some t ∧ SeqInv t ∧
      t.capacity = t0.capacity ∧ t.num_items = t0.num_items + us.length ∧
      (records t).Perm (us ++ records t0) := by
  induction us with
  | nil =>
    intro t0 hs _ _ _ _
    exact ⟨t0, rfl, hs, rfl, by simp, by simp⟩
  | cons u rest ih =>
    intro t0 hs hwf hnd hfresh hbound
    have hlen : (u :: rest).length = rest.length + 1 := rfl
    rw [hlen] at hbound
    have hnt : ¬ 3 * t0.capacity < 4 * (t0.num_items + 1) := by omega
    obtain ⟨T, hIns, hsT, hperm, hcap, hnum⟩ := insert_run t0 u hs
      (hwf u (List.mem_cons_self _ _)) (hfresh u (List.mem_cons_self _ _))
    rw [if_neg hnt] at hcap hnum
    have hstep : List.foldl runOp (some t0) ((u :: rest).map Op.ins) =
        List.foldl runOp (some T) (rest.map Op.ins) := by
      show List.foldl runOp (runOp (some t0) (Op.ins u)) (rest.map Op.ins) = _
      rw [show runOp (some t0) (Op.ins u) = (insert_user 1 0 true t0 u).2 from rfl, hIns]
    have hnperm : (recordNames T).Perm (u.name :: recordNames t0) :=
      recordNames_perm_of_records hperm
    have hndc := List.nodup_cons.mp
      (show (u.name :: rest.map user_t.name).Nodup from hnd)
    obtain ⟨t, hrun, hst, hcap2, hnum2, hperm2⟩ := ih T hsT
      (fun v hv => hwf v (List.mem_cons_of_mem _ hv))
      hndc.2
      (fun v hv hmem => by
        rcases List.mem_cons.mp (hnperm.mem_iff.mp hmem) with h | h
        · exact hndc.1 (h ▸ List.mem_map_of_mem user_t.name hv)
        · exact hfresh v (List.mem_cons_of_mem _ hv) h)
      (by rw [hcap, hnum]; omega)
    refine ⟨t, by rw [hstep]; exact hrun, hst, by rw [hcap2, hcap], ?_, ?_⟩
    · rw [hnum2, hnum, hlen]; omega
    · refine hperm2.trans ?_
      exact ((hperm.append_left rest).trans List.perm_middle)

/-- C5: starting from a freshly created table (capacity 64), inserting 49
records with pairwise-distinct well-formed names leaves the first 48 inserts
at capacity 64 with `num_items = 48`; the 49th insert sees a prospective load
factor above 0.75 (the growth trigger fires) and first doubles the capacity
to 128 before completing, after which all 49 records — with unchanged name,
secret and permission fields — are retrievable by lookup under their names. -/

theorem C5_forty_nine_inserts (us : List user_t) (hlen : us.length = 49)
    (hwf : ∀ u ∈ us, wfName u.name) (hnd : (us.map user_t.name).Nodup)
    (t48 t49 : hash_table_t)
    (h48 : runState ((us.take 48).map Op.ins) = some t48)
    (h49 : runState (us.map Op.ins) = some t49) :
    t48.capacity = 64 ∧ t48.num_items = 48 ∧
    3 * t48.capacity < 4 * (t48.num_items + 1) ∧
    t49.capacity = 128 ∧ t49.num_items = 49 ∧
    (records t49).Perm us ∧
    ∀ u ∈ us, lookup_user 0 t49 u.name = some u := by
  obtain ⟨u49, hdrop⟩ : ∃ x, us.drop 48 = [x] := by
    apply List.length_eq_one.mp
    rw [List.length_drop, hlen]
  have husplit : us = us.take 48 ++ [u49] := by
    conv_lhs => rw [← List.take_append_drop 48 us]
    rw [hdrop]
  have htlen : (us.take 48).length = 48 := by
    rw [List.length_take, hlen]
    omega
  obtain ⟨T48, hrun48, hs48, hcap48, hnum48, hperm48⟩ := insert_seq_no_grow (us.take 48)
    create_table seqInv_create
    (fun u hu => hwf u (List.take_subset 48 us hu))
    (by rw [List.map_take _ _ _]
        exact hnd.sublist (List.take_sublist _ _))
    (fun u _ => by rw [show recordNames create_table = [] from by decide]; simp)
    (by rw [htlen]; decide)
  have ht48 : t48 = T48 := by
    unfold runState at h48
    rw [hrun48] at h48
    exact Option.some_injective _ h48.symm
  subst ht48
  have hreclen : (records t48).length = 48 := by
    rw [hperm48.length_eq, List.length_append, htlen,
      show records create_table = [] from by decide]
    rfl
  have htrig : 3 * t48.capacity < 4 * (t48.num_items + 1) := by
    rw [hcap48, hnum48, htlen]; decide
  have hu49mem : u49 ∈ us := by
    rw [husplit]; exact List.mem_append_right _ (List.mem_singleton.mpr rfl)
  have hnmap : us.map user_t.name = (us.take 48).map user_t.name ++ [u49.name] := by
    conv_lhs => rw [husplit]
    rw [List.map_append]
    rfl
  have hdis := (List.nodup_append.mp (hnmap ▸ hnd)).2.2
  have hfresh49 : u49.name ∉ recordNames t48 := by
    intro hmem
    have h1 : u49.name ∈ ((us.take 48) ++ records create_table).map user_t.name :=
      (recordNames_perm_of_records hperm48).mem_iff.mp hmem
    rw [show records create_table = [] from by decide, List.append_nil] at h1
    exact hdis h1 (List.mem_singleton.mpr rfl)
  obtain ⟨T49, hIns49, hs49, hperm49, hcap49, hnum49⟩ :=
    insert_run t48 u49 hs48 (hwf u49 hu49mem) hfresh49
  rw [if_pos htrig] at hcap49 hnum49
  have hmap : us.map Op.ins = (us.take 48).map Op.ins ++ [Op.ins u49] := by
    conv_lhs => rw [husplit]
    rw [List.map_append]
    rfl
  have hrun49 : runState (us.map Op.ins) = some T49 := by
    unfold runState
    rw [hmap, List.foldl_append, hrun48]
    show runOp (some t48) (Op.ins u49) = some T49
    rw [show runOp (some t48) (Op.ins u49) = (insert_user 1 0 true t48 u49).2 from rfl,
      hIns49]
  have ht49 : t49 = T49 := by
    rw [hrun49] at h49
    exact Option.some_injective _ h49.symm
  subst ht49
  have hpermUs : (records t49).Perm us := by
    refine hperm49.trans ?_
    have h1 : (records t48).Perm (us.take 48) := by
      refine hperm48.trans ?_
      rw [show records create_table = [] from by decide, List.append_nil]
    refine (h1.cons u49).trans ?_
    conv_rhs => rw [husplit]
    exact (List.perm_append_singleton u49 (us.take 48)).symm
  refine ⟨by rw [hcap48]; rfl, by rw [hnum48, htlen]; rfl, htrig, ?_, ?_, hpermUs, ?_⟩
  · rw [hcap49, hcap48]; rfl
  · rw [hnum49, hreclen]
  · intro u hu
    have hpos : 0 < t49.capacity := by have := hs49.cap_ge; omega
    exact lookup_mem t49 u hs49.wf hpos hs49.names_wf hs49.names_nodup
      (hpermUs.mem_iff.mpr hu)

theorem C1_lookup_after_insert_delete_witness :
    lookup_user 0 c2_table c2_user.name = some c2_user ∧
    lookup_user 0 (delete_user 0 c2_table [97]).2 [97] = none :=
  ⟨(C1_lookup_after_insert_delete [] (by decide)).1 c2_user c2_table (by decide)
     (by decide) (by decide),
   (C1_lookup_after_insert_delete [Op.ins c2_user] (by decide)).2 [97] c2_table
     (by decide) (by decide) (by decide) (by decide)⟩

set_option maxRecDepth 10000 in
theorem C5_forty_nine_inserts_witness :
    c5_t48.capacity = 64 ∧ c5_t48.num_items = 48 ∧
    3 * c5_t48.capacity < 4 * (c5_t48.num_items + 1) ∧
    c5_t49.capacity = 128 ∧ c5_t49.num_items = 49 ∧
    lookup_user 0 c5_t49 [7] = some (⟨[7], [], 0, 0, 0⟩ : user_t) := by
  have h := C5_forty_nine_inserts c5_users (by decide) (by decide) (by decide)
    c5_t48 c5_t49 (by decide) (by decide)
  exact ⟨h.1, h.2.1, h.2.2.1, h.2.2.2.1, h.2.2.2.2.1,
    h.2.2.2.2.2.2 ⟨[7], [], 0, 0, 0⟩ (by decide)⟩
